import Mathlib

/-!
Shallow embedding of `src/seam_carving.cpp` (seam-carving image resizer).

Pixel buffers (`Cube` in the C++ source) are modelled as functions
`ℕ → ℕ → ℕ → ℕ` (row, column, channel ↦ byte value); the logical
dimensions travel separately, exactly as in the source where the backing
allocation is fixed and only a logical sub-rectangle is valid.  Energy
fields (`Energy`, C++ `double`) hold exact integer values in this program
(sums of squared 8-bit differences), so they are modelled as `ℤ`-valued
grids `ℕ → ℕ → ℤ`.  Seams are modelled as functions `ℕ → ℕ` (row ↦ column
for vertical seams, column ↦ row for horizontal ones).
-/

/-- A BGR pixel buffer: row, column, channel ↦ value (C++ class `Cube`). -/
def Cube := ℕ → ℕ → ℕ → ℕ

/-- An energy field: row, column ↦ energy (C++ class `Energy`). -/
def EnergyGrid := ℕ → ℕ → ℤ

/-! ### Vertical seam search (`find_vertical_seam`, lines 127-178) -/

/-- One cell of the DP fill of `find_vertical_seam` (lines 141-152): given the
previous row `d` of the `dist` table, the width, and the column, return the
chosen `(best_val, best_x)` pair.  The straight predecessor is taken first,
the left diagonal replaces it only on a strictly smaller value, then the
right diagonal only on a strictly smaller value still. -/
def vstep (d : ℕ → ℤ) (width x : ℕ) : ℤ × ℕ :=
  if 0 < x ∧ d (x - 1) < d x then
    if x + 1 < width ∧ d (x + 1) < d (x - 1) then (d (x + 1), x + 1) else (d (x - 1), x - 1)
  else
    if x + 1 < width ∧ d (x + 1) < d x then (d (x + 1), x + 1) else (d x, x)

/-- The cumulative-cost table `dist` of `find_vertical_seam` (lines 133-157),
indexed row then column. -/
def vdist (E : EnergyGrid) (width : ℕ) : ℕ → ℕ → ℤ
  | 0, x => E 0 x
  | y + 1, x => (vstep (vdist E width y) width x).1 + E (y + 1) x

/-- The predecessor table `back` of `find_vertical_seam` (lines 133-157);
row 0 is marked `-1` ("start of seam"). -/
def vback (E : EnergyGrid) (width : ℕ) : ℕ → ℕ → ℤ
  | 0, _ => -1
  | y + 1, x => ((vstep (vdist E width y) width x).2 : ℤ)

/-- The last-row scan of `find_vertical_seam` (lines 160-165) generalised:
after scanning indices `0..n` of `f`, return `(best_index, best_value)`;
a later index replaces the current best only on a strictly smaller value. -/
def vscan (f : ℕ → ℤ) : ℕ → ℕ × ℤ
  | 0 => (0, f 0)
  | n + 1 => if f (n + 1) < (vscan f n).2 then (n + 1, f (n + 1)) else vscan f n

/-- The minimising end column of the last row (lines 160-165). -/
def vbest_col (E : EnergyGrid) (height width : ℕ) : ℕ :=
  (vscan (vdist E width (height - 1)) (width - 1)).1

/-- Seam reconstruction (lines 168-173), counted in steps `k` above the
bottom row: entry `k` is `seam[height-1-k]`. -/
def vseam_from (E : EnergyGrid) (height width : ℕ) : ℕ → ℕ
  | 0 => vbest_col E height width
  | k + 1 => (vback E width (height - 1 - k) (vseam_from E height width k)).toNat

/-- `find_vertical_seam` (lines 127-178): the returned seam as a function
row ↦ column. -/
def find_vertical_seam (E : EnergyGrid) (height width : ℕ) (y : ℕ) : ℕ :=
  vseam_from E height width (height - 1 - y)

/-! ### Horizontal seam search (`find_horizontal_seam`, lines 188-239) -/

/-- One cell of the DP fill of `find_horizontal_seam` (lines 202-216): given
the previous column `d` of the `dist` table (as a function of the row), the
height, and the row, return the chosen `(best_val, best_y)` pair. -/
def hstep (d : ℕ → ℤ) (height y : ℕ) : ℤ × ℕ :=
  if 0 < y ∧ d (y - 1) < d y then
    if y + 1 < height ∧ d (y + 1) < d (y - 1) then (d (y + 1), y + 1) else (d (y - 1), y - 1)
  else
    if y + 1 < height ∧ d (y + 1) < d y then (d (y + 1), y + 1) else (d y, y)

/-- The cumulative-cost table of `find_horizontal_seam` (lines 194-218),
indexed column then row (the fill proceeds left to right). -/
def hdist (E : EnergyGrid) (height : ℕ) : ℕ → ℕ → ℤ
  | 0, y => E y 0
  | x + 1, y => (hstep (hdist E height x) height y).1 + E y (x + 1)

/-- The predecessor table of `find_horizontal_seam`, indexed column then row;
column 0 is marked `-1`. -/
def hback (E : EnergyGrid) (height : ℕ) : ℕ → ℕ → ℤ
  | 0, _ => -1
  | x + 1, y => ((hstep (hdist E height x) height y).2 : ℤ)

/-- The last-column scan of `find_horizontal_seam` (lines 221-226). -/
def hscan (f : ℕ → ℤ) : ℕ → ℕ × ℤ
  | 0 => (0, f 0)
  | n + 1 => if f (n + 1) < (hscan f n).2 then (n + 1, f (n + 1)) else hscan f n

/-- The minimising end row of the last column (lines 221-226). -/
def hbest_row (E : EnergyGrid) (height width : ℕ) : ℕ :=
  (hscan (hdist E height (width - 1)) (height - 1)).1

/-- Seam reconstruction of `find_horizontal_seam` (lines 229-234), counted in
steps `k` left of the last column: entry `k` is `seam[width-1-k]`. -/
def hseam_from (E : EnergyGrid) (height width : ℕ) : ℕ → ℕ
  | 0 => hbest_row E height width
  | k + 1 => (hback E height (width - 1 - k) (hseam_from E height width k)).toNat

/-- `find_horizontal_seam` (lines 188-239): the returned seam as a function
column ↦ row. -/
def find_horizontal_seam (E : EnergyGrid) (height width : ℕ) (x : ℕ) : ℕ :=
  hseam_from E height width (width - 1 - x)

/-! ### Path validity and totals -/

/-- A valid vertical path: one in-range column per row, adjacent rows'
columns differing by at most 1. -/
def valid_vpath (p : ℕ → ℕ) (height width : ℕ) : Prop :=
  (∀ y, y < height → p y < width) ∧
  (∀ y, y + 1 < height → p y ≤ p (y + 1) + 1 ∧ p (y + 1) ≤ p y + 1)

/-- A valid horizontal path: one in-range row per column, adjacent columns'
rows differing by at most 1. -/
def valid_hpath (q : ℕ → ℕ) (height width : ℕ) : Prop :=
  (∀ x, x < width → q x < height) ∧
  (∀ x, x + 1 < width → q x ≤ q (x + 1) + 1 ∧ q (x + 1) ≤ q x + 1)

/-- Total energy of a vertical path over `height` rows. -/
def vtotal (E : EnergyGrid) (p : ℕ → ℕ) (height : ℕ) : ℤ :=
  ∑ y ∈ Finset.range height, E y (p y)

/-- Total energy of a horizontal path over `width` columns. -/
def htotal (E : EnergyGrid) (q : ℕ → ℕ) (width : ℕ) : ℤ :=
  ∑ x ∈ Finset.range width, E (q x) x

/-! ### The horizontal search is the exact transpose of the vertical one -/

/-- Transpose of an energy field. -/
def transposeE (E : EnergyGrid) : EnergyGrid := fun a b => E b a

/-! ### Dual-gradient energy (`dual_gradient_energy`, lines 89-117) -/

/-- `dual_gradient_energy` (lines 89-117).  The C++ code stores
`double(dx2 + dy2)` where `dx2`, `dy2` are exact `long long` sums of squared
channel differences; those values are integers, modelled in `ℤ`.  The C++
channel-difference variables `by`, `gy`, `ry` are renamed `b_y`, `g_y`, `r_y`
here because `by` is reserved in Lean. -/
def dual_gradient_energy (cube : Cube) (height width depth : ℕ) : EnergyGrid :=
  fun row_number column_number =>
    let upper_pixel := (row_number + height - 1) % height
    let lower_pixel := (row_number + 1) % height
    let left_pixel := (column_number + width - 1) % width
    let right_pixel := (column_number + 1) % width
    let bx : ℤ := (cube row_number right_pixel 0 : ℤ) - (cube row_number left_pixel 0 : ℤ)
    let gx : ℤ := (cube row_number right_pixel 1 : ℤ) - (cube row_number left_pixel 1 : ℤ)
    let rx : ℤ := (cube row_number right_pixel 2 : ℤ) - (cube row_number left_pixel 2 : ℤ)
    let dx2 : ℤ := bx * bx + gx * gx + rx * rx
    let b_y : ℤ := (cube lower_pixel column_number 0 : ℤ) - (cube upper_pixel column_number 0 : ℤ)
    let g_y : ℤ := (cube lower_pixel column_number 1 : ℤ) - (cube upper_pixel column_number 1 : ℤ)
    let r_y : ℤ := (cube lower_pixel column_number 2 : ℤ) - (cube upper_pixel column_number 2 : ℤ)
    let dy2 : ℤ := b_y * b_y + g_y * g_y + r_y * r_y
    dx2 + dy2

/-- The spec's formula for the energy: sum over the three channels of the
squared left/right difference plus the sum over the three channels of the
squared up/down difference, neighbours wrapping around the borders. -/
def spec_energy (cube : Cube) (height width : ℕ) (y x : ℕ) : ℤ :=
  let up := if y = 0 then height - 1 else y - 1
  let dn := if y + 1 = height then 0 else y + 1
  let lf := if x = 0 then width - 1 else x - 1
  let rt := if x + 1 = width then 0 else x + 1
  (∑ c ∈ Finset.range 3, ((cube y rt c : ℤ) - (cube y lf c : ℤ)) ^ 2)
    + (∑ c ∈ Finset.range 3, ((cube dn x c : ℤ) - (cube up x c : ℤ)) ^ 2)

/-! ### Seam deletion (`delete_vertical_seam` lines 309-321,
`delete_horizontal_seam` lines 324-336) -/

/-- Write one channel value into the buffer (the C++ assignment
`cube(y, x, c) = v`). -/
def cube_set (cb : Cube) (y x c : ℕ) (v : ℕ) : Cube :=
  fun a b d => if a = y ∧ b = x ∧ d = c then v else cb a b d

/-- The body of the vertical shift loop (lines 315-317): copy the three
channels of pixel `(y, j+1)` into pixel `(y, j)`, sequentially. -/
def copy_pixel_left (cb : Cube) (y j : ℕ) : Cube :=
  let cb0 := cube_set cb y j 0 (cb y (j + 1) 0)
  let cb1 := cube_set cb0 y j 1 (cb0 y (j + 1) 1)
  cube_set cb1 y j 2 (cb1 y (j + 1) 2)

/-- The vertical shift loop of row `y` (lines 314-318):
`for (j = x; j < width - 1; ++j)` copy pixel `j+1` onto pixel `j`. -/
def shift_row_left (cb : Cube) (y x width : ℕ) : Cube :=
  (List.range' x (width - 1 - x)).foldl (fun acc j => copy_pixel_left acc y j) cb

/-- `delete_vertical_seam` (lines 309-321): for each row, if the seam entry is
in range, shift the row's tail left by one; then the width shrinks by one.
Returns the new buffer and the new width (the height is passed by reference
in C++ but never modified). -/
def delete_vertical_seam (cb : Cube) (seam : ℕ → ℕ) (height width : ℕ) : Cube × ℕ :=
  ((List.range height).foldl
    (fun acc y => if width ≤ seam y then acc else shift_row_left acc y (seam y) width) cb,
   width - 1)

/-- The body of the horizontal shift loop (lines 330-332): copy the three
channels of pixel `(i+1, x)` into pixel `(i, x)`. -/
def copy_pixel_up (cb : Cube) (i x : ℕ) : Cube :=
  let cb0 := cube_set cb i x 0 (cb (i + 1) x 0)
  let cb1 := cube_set cb0 i x 1 (cb0 (i + 1) x 1)
  cube_set cb1 i x 2 (cb1 (i + 1) x 2)

/-- The horizontal shift loop of column `x` (lines 329-333). -/
def shift_col_up (cb : Cube) (x y height : ℕ) : Cube :=
  (List.range' y (height - 1 - y)).foldl (fun acc i => copy_pixel_up acc i x) cb

/-- `delete_horizontal_seam` (lines 324-336): for each column, if the seam
entry is in range, shift the column's tail up by one; then the height shrinks
by one.  Returns the new buffer and the new height. -/
def delete_horizontal_seam (cb : Cube) (seam : ℕ → ℕ) (height width : ℕ) : Cube × ℕ :=
  ((List.range width).foldl
    (fun acc x => if height ≤ seam x then acc else shift_col_up acc x (seam x) height) cb,
   height - 1)

/-! ### The carving loop (`main`, lines 424-489) -/

/-- The upper clamp applied by `main` to each requested target dimension
(lines 468-469): `if (new_height > H) new_height = H;` and likewise for the
width.  There is no lower clamp and no rejection of zero targets. -/
def clamp_target (orig t : ℕ) : ℕ := if orig < t then orig else t

/-- The width-reduction loop of `main` (lines 471-479):
`while (W > new_width && W >= 2)` recompute the energy, find a vertical
seam, show it, and delete it.  Each pass `delete_vertical_seam` leaves the
new width `(W + 1) - 1 = W`, which is the recursion argument. -/
def carve_width (H new_width : ℕ) : Cube → ℕ → Cube × ℕ
  | cb, 0 => (cb, 0)
  | cb, W + 1 =>
    if new_width < W + 1 ∧ 2 ≤ W + 1 then
      carve_width H new_width
        (delete_vertical_seam cb
          (find_vertical_seam (dual_gradient_energy cb H (W + 1) 3) H (W + 1))
          H (W + 1)).1 W
    else (cb, W + 1)

/-- The height-reduction loop of `main` (lines 481-489), the horizontal
counterpart of `carve_width`. -/
def carve_height (W new_height : ℕ) : Cube → ℕ → Cube × ℕ
  | cb, 0 => (cb, 0)
  | cb, H + 1 =>
    if new_height < H + 1 ∧ 2 ≤ H + 1 then
      carve_height W new_height
        (delete_horizontal_seam cb
          (find_horizontal_seam (dual_gradient_energy cb (H + 1) W 3) (H + 1) W)
          (H + 1) W).1 H
    else (cb, H + 1)

/-- The carving portion of `main` (lines 424-489): clamp the requested
targets from above, run the width loop, then the height loop on its result.
Returns the final buffer, final height, and final width. -/
def seam_main (cb : Cube) (H0 W0 new_width new_height : ℕ) : Cube × ℕ × ℕ :=
  let nh := clamp_target H0 new_height
  let nw := clamp_target W0 new_width
  let r1 := carve_width H0 nw cb W0
  let r2 := carve_height r1.2 nh r1.1 H0
  (r2.1, r2.2, r1.2)

/-- A concrete all-zero energy field, used to instantiate theorems. -/
def zeroE : EnergyGrid := fun _ _ => 0

/-- A concrete all-zero pixel buffer, used to instantiate theorems. -/
def zeroCube : Cube := fun _ _ _ => 0

/-- A concrete 2-row energy field whose rows are `[5, 0]` and `[0, 5]`,
used to instantiate theorems on a grid where the seam must bend. -/
def bendE : EnergyGrid := fun y x => if y = 0 then (if x = 0 then 5 else 0) else (if x = 0 then 0 else 5)

/-- A concrete pixel buffer with pairwise distinct channel values, used to
instantiate theorems where pixel movement must be observable. -/
def rampCube : Cube := fun y x c => y + 10 * x + 100 * c

/-! ### Basic properties of the DP step -/

theorem vstep_fst_le_self (d : ℕ → ℤ) (width x : ℕ) : (vstep d width x).1 ≤ d x := by
  unfold vstep
  split_ifs <;> simp_all <;> omega

theorem vstep_fst_le_left (d : ℕ → ℤ) (width x : ℕ) (hx : 0 < x) :
    (vstep d width x).1 ≤ d (x - 1) := by
  unfold vstep
  split_ifs <;> simp_all <;> omega

theorem vstep_fst_le_right (d : ℕ → ℤ) (width x : ℕ) (hx : x + 1 < width) :
    (vstep d width x).1 ≤ d (x + 1) := by
  unfold vstep
  split_ifs <;> simp_all <;> omega

theorem vstep_fst_eq_snd (d : ℕ → ℤ) (width x : ℕ) :
    (vstep d width x).1 = d (vstep d width x).2 := by
  unfold vstep
  split_ifs <;> simp

theorem vstep_snd_cases (d : ℕ → ℤ) (width x : ℕ) :
    (vstep d width x).2 = x ∨ (0 < x ∧ (vstep d width x).2 = x - 1) ∨
      (x + 1 < width ∧ (vstep d width x).2 = x + 1) := by
  unfold vstep
  split_ifs <;> simp_all

theorem vstep_snd_lt (d : ℕ → ℤ) (width x : ℕ) (hx : x < width) :
    (vstep d width x).2 < width := by
  rcases vstep_snd_cases d width x with h | ⟨h1, h⟩ | ⟨h1, h⟩ <;> omega

theorem vstep_snd_adj (d : ℕ → ℤ) (width x : ℕ) :
    (vstep d width x).2 ≤ x + 1 ∧ x ≤ (vstep d width x).2 + 1 := by
  rcases vstep_snd_cases d width x with h | ⟨h1, h⟩ | ⟨h1, h⟩ <;> omega

/-! ### The DP table bounds every valid path from above the current row -/

theorem vdist_le_path (E : EnergyGrid) (width : ℕ) (p : ℕ → ℕ) :
    ∀ y, (∀ i, i ≤ y → p i < width) →
      (∀ i, i + 1 ≤ y → p i ≤ p (i + 1) + 1 ∧ p (i + 1) ≤ p i + 1) →
      vdist E width y (p y) ≤ ∑ i ∈ Finset.range (y + 1), E i (p i) := by
  intro y
  induction y with
  | zero => intro _ _; simp [vdist]
  | succ y ih =>
    intro hin hadj
    have ihy := ih (fun i hi => hin i (by omega)) (fun i hi => hadj i (by omega))
    have hle : (vstep (vdist E width y) width (p (y + 1))).1 ≤ vdist E width y (p y) := by
      have h1 := hadj y (by omega)
      have h3 := hin y (by omega)
      rcases Nat.lt_trichotomy (p y) (p (y + 1)) with h | h | h
      · have hx : 0 < p (y + 1) := by omega
        have hpe : p y = p (y + 1) - 1 := by omega
        rw [hpe]
        exact vstep_fst_le_left _ _ _ hx
      · rw [← h]
        have := vstep_fst_le_self (vdist E width y) width (p y)
        rw [h] at this ⊢
        exact this
      · have hpe : p y = p (y + 1) + 1 := by omega
        rw [hpe]
        exact vstep_fst_le_right _ _ _ (by omega)
    calc vdist E width (y + 1) (p (y + 1))
        = (vstep (vdist E width y) width (p (y + 1))).1 + E (y + 1) (p (y + 1)) := rfl
      _ ≤ vdist E width y (p y) + E (y + 1) (p (y + 1)) := by linarith
      _ ≤ (∑ i ∈ Finset.range (y + 1), E i (p i)) + E (y + 1) (p (y + 1)) := by linarith
      _ = ∑ i ∈ Finset.range (y + 2), E i (p i) := (Finset.sum_range_succ _ _).symm

/-! ### The backtracked seam attains the DP value -/

theorem vback_toNat (E : EnergyGrid) (width y x : ℕ) :
    (vback E width (y + 1) x).toNat = (vstep (vdist E width y) width x).2 := by
  simp [vback]

theorem vdist_succ_back (E : EnergyGrid) (width y x : ℕ) :
    vdist E width (y + 1) x
      = vdist E width y (vback E width (y + 1) x).toNat + E (y + 1) x := by
  have h := vstep_fst_eq_snd (vdist E width y) width x
  show (vstep (vdist E width y) width x).1 + E (y + 1) x = _
  rw [h, vback_toNat]

theorem vback_lt (E : EnergyGrid) (width y x : ℕ) (hx : x < width) :
    (vback E width (y + 1) x).toNat < width := by
  rw [vback_toNat]
  exact vstep_snd_lt _ _ _ hx

theorem vback_adj (E : EnergyGrid) (width y x : ℕ) :
    (vback E width (y + 1) x).toNat ≤ x + 1 ∧ x ≤ (vback E width (y + 1) x).toNat + 1 := by
  rw [vback_toNat]
  exact vstep_snd_adj _ _ _

/-! ### The last-row scan returns a first-minimum -/

theorem vscan_fst_le (f : ℕ → ℤ) : ∀ n, (vscan f n).1 ≤ n := by
  intro n
  induction n with
  | zero => exact Nat.le_refl 0
  | succ n ih =>
    show (if f (n + 1) < (vscan f n).2 then (n + 1, f (n + 1)) else vscan f n).1 ≤ n + 1
    split_ifs
    · exact Nat.le_refl (n + 1)
    · omega

theorem vscan_snd_eq (f : ℕ → ℤ) : ∀ n, (vscan f n).2 = f (vscan f n).1 := by
  intro n
  induction n with
  | zero => simp [vscan]
  | succ n ih =>
    show (if f (n + 1) < (vscan f n).2 then (n + 1, f (n + 1)) else vscan f n).2
      = f (if f (n + 1) < (vscan f n).2 then (n + 1, f (n + 1)) else vscan f n).1
    split_ifs <;> simpa

theorem vscan_snd_le (f : ℕ → ℤ) : ∀ n x, x ≤ n → (vscan f n).2 ≤ f x := by
  intro n
  induction n with
  | zero =>
    intro x hx
    have : x = 0 := by omega
    simp [vscan, this]
  | succ n ih =>
    intro x hx
    show (if f (n + 1) < (vscan f n).2 then (n + 1, f (n + 1)) else vscan f n).2 ≤ f x
    rcases Nat.lt_or_ge x (n + 1) with h | h
    · have := ih x (by omega)
      split_ifs <;> simp <;> linarith
    · have hxe : x = n + 1 := by omega
      subst hxe
      split_ifs with hc <;> simp <;> linarith

/-! ### Properties of the reconstructed vertical seam -/

theorem vseam_from_lt (E : EnergyGrid) (height width : ℕ) (hw : 1 ≤ width) :
    ∀ k, vseam_from E height width k < width := by
  intro k
  induction k with
  | zero =>
    show vbest_col E height width < width
    have := vscan_fst_le (vdist E width (height - 1)) (width - 1)
    unfold vbest_col
    omega
  | succ k ih =>
    show (vback E width (height - 1 - k) (vseam_from E height width k)).toNat < width
    rcases Nat.eq_zero_or_eq_succ_pred (height - 1 - k) with h | h
    · rw [h]
      show ((-1 : ℤ)).toNat < width
      simp
      omega
    · rw [h]
      exact vback_lt E width _ _ ih

theorem find_vertical_seam_lt (E : EnergyGrid) (height width : ℕ) (hw : 1 ≤ width)
    (y : ℕ) : find_vertical_seam E height width y < width :=
  vseam_from_lt E height width hw (height - 1 - y)

/-- The reconstruction step: each row's seam entry is the recorded predecessor
of the next row's entry. -/
theorem find_vertical_seam_succ (E : EnergyGrid) (height width y : ℕ)
    (hy : y + 1 < height) :
    find_vertical_seam E height width y
      = (vback E width (y + 1) (find_vertical_seam E height width (y + 1))).toNat := by
  unfold find_vertical_seam
  have h1 : height - 1 - y = (height - 1 - (y + 1)) + 1 := by omega
  have h2 : height - 1 - (height - 1 - (y + 1)) = y + 1 := by omega
  rw [h1, vseam_from, h2]

theorem find_vertical_seam_adj (E : EnergyGrid) (height width y : ℕ)
    (hy : y + 1 < height) :
    find_vertical_seam E height width y ≤ find_vertical_seam E height width (y + 1) + 1 ∧
      find_vertical_seam E height width (y + 1) ≤ find_vertical_seam E height width y + 1 := by
  rw [find_vertical_seam_succ E height width y hy]
  have := vback_adj E width y (find_vertical_seam E height width (y + 1))
  omega

/-- The seam's cumulative energy through row `y` is exactly the DP value at
its row-`y` entry. -/
theorem vdist_seam_sum (E : EnergyGrid) (height width : ℕ) (hw : 1 ≤ width) :
    ∀ y, y + 1 ≤ height →
      vdist E width y (find_vertical_seam E height width y)
        = ∑ i ∈ Finset.range (y + 1), E i (find_vertical_seam E height width i) := by
  intro y
  induction y with
  | zero =>
    intro _
    simp [vdist]
  | succ y ih =>
    intro hy
    rw [vdist_succ_back, ← find_vertical_seam_succ E height width y (by omega),
      ih (by omega)]
    exact (Finset.sum_range_succ _ _).symm

/-- The seam's total energy is the minimum last-row DP value. -/
theorem vtotal_seam (E : EnergyGrid) (height width : ℕ) (hh : 1 ≤ height)
    (hw : 1 ≤ width) :
    vtotal E (find_vertical_seam E height width) height
      = vdist E width (height - 1) (vbest_col E height width) := by
  have hsum := vdist_seam_sum E height width hw (height - 1) (by omega)
  have hend : find_vertical_seam E height width (height - 1) = vbest_col E height width := by
    unfold find_vertical_seam
    rw [Nat.sub_self]
    rfl
  rw [hend] at hsum
  unfold vtotal
  rw [show Finset.range height = Finset.range ((height - 1) + 1) from by
    rw [show (height - 1) + 1 = height from by omega]]
  exact hsum.symm

/-- Vertical minimality: the returned seam's total energy is at most that of
any valid vertical path. -/
theorem vseam_minimal (E : EnergyGrid) (height width : ℕ) (hh : 1 ≤ height)
    (hw : 1 ≤ width) (p : ℕ → ℕ) (hp : valid_vpath p height width) :
    vtotal E (find_vertical_seam E height width) height ≤ vtotal E p height := by
  obtain ⟨hin, hadj⟩ := hp
  have hmin : vdist E width (height - 1) (vbest_col E height width)
      ≤ vdist E width (height - 1) (p (height - 1)) := by
    have h1 := vscan_snd_le (vdist E width (height - 1)) (width - 1) (p (height - 1))
      (by have := hin (height - 1) (by omega); omega)
    have h2 := vscan_snd_eq (vdist E width (height - 1)) (width - 1)
    unfold vbest_col
    rw [← h2]
    exact h1
  have hpath := vdist_le_path E width p (height - 1)
    (fun i hi => hin i (by omega)) (fun i hi => hadj i (by omega))
  rw [vtotal_seam E height width hh hw]
  have hrw : vtotal E p height = ∑ i ∈ Finset.range ((height - 1) + 1), E i (p i) := by
    unfold vtotal
    rw [show (height - 1) + 1 = height by omega]
  rw [hrw]
  linarith

theorem hstep_eq_vstep : hstep = vstep := rfl

theorem hscan_eq_vscan (f : ℕ → ℤ) : ∀ n, hscan f n = vscan f n := by
  intro n
  induction n with
  | zero => rfl
  | succ n ih =>
    show (if f (n + 1) < (hscan f n).2 then (n + 1, f (n + 1)) else hscan f n)
      = (if f (n + 1) < (vscan f n).2 then (n + 1, f (n + 1)) else vscan f n)
    rw [ih]

theorem hdist_eq_vdist (E : EnergyGrid) (height : ℕ) :
    ∀ x y, hdist E height x y = vdist (transposeE E) height x y := by
  intro x
  induction x with
  | zero => intro y; rfl
  | succ x ih =>
    intro y
    show (hstep (hdist E height x) height y).1 + E y (x + 1)
      = (vstep (vdist (transposeE E) height x) height y).1 + transposeE E (x + 1) y
    rw [hstep_eq_vstep, funext ih]
    rfl

theorem hback_eq_vback (E : EnergyGrid) (height : ℕ) :
    ∀ x y, hback E height x y = vback (transposeE E) height x y := by
  intro x y
  cases x with
  | zero => rfl
  | succ x =>
    show ((hstep (hdist E height x) height y).2 : ℤ)
      = ((vstep (vdist (transposeE E) height x) height y).2 : ℤ)
    rw [hstep_eq_vstep, funext (hdist_eq_vdist E height x)]

theorem hbest_row_eq_vbest_col (E : EnergyGrid) (height width : ℕ) :
    hbest_row E height width = vbest_col (transposeE E) width height := by
  unfold hbest_row vbest_col
  rw [hscan_eq_vscan, funext (hdist_eq_vdist E height (width - 1))]

theorem hseam_from_eq_vseam_from (E : EnergyGrid) (height width : ℕ) :
    ∀ k, hseam_from E height width k = vseam_from (transposeE E) width height k := by
  intro k
  induction k with
  | zero => exact hbest_row_eq_vbest_col E height width
  | succ k ih =>
    show (hback E height (width - 1 - k) (hseam_from E height width k)).toNat
      = (vback (transposeE E) height (width - 1 - k)
          (vseam_from (transposeE E) width height k)).toNat
    rw [hback_eq_vback, ih]

/-- `find_horizontal_seam` coincides with `find_vertical_seam` run on the
transposed field with swapped dimensions. -/
theorem find_horizontal_eq_vertical_transpose (E : EnergyGrid) (height width : ℕ) :
    find_horizontal_seam E height width
      = fun x => find_vertical_seam (transposeE E) width height x := by
  funext x
  exact hseam_from_eq_vseam_from E height width (width - 1 - x)

/-- Horizontal minimality, derived through the transpose equivalence. -/
theorem hseam_minimal (E : EnergyGrid) (height width : ℕ) (hh : 1 ≤ height)
    (hw : 1 ≤ width) (q : ℕ → ℕ) (hq : valid_hpath q height width) :
    htotal E (find_horizontal_seam E height width) width ≤ htotal E q width := by
  have hv := vseam_minimal (transposeE E) width height hw hh q hq
  have h1 : htotal E (find_horizontal_seam E height width) width
      = vtotal (transposeE E) (find_vertical_seam (transposeE E) width height) width := by
    rw [find_horizontal_eq_vertical_transpose]
    rfl
  have h2 : htotal E q width = vtotal (transposeE E) q width := rfl
  rw [h1, h2]
  exact hv

theorem find_horizontal_seam_lt (E : EnergyGrid) (height width : ℕ) (hh : 1 ≤ height)
    (x : ℕ) : find_horizontal_seam E height width x < height := by
  rw [find_horizontal_eq_vertical_transpose]
  exact find_vertical_seam_lt (transposeE E) width height hh x

theorem find_horizontal_seam_adj (E : EnergyGrid) (height width x : ℕ)
    (hx : x + 1 < width) :
    find_horizontal_seam E height width x ≤ find_horizontal_seam E height width (x + 1) + 1 ∧
      find_horizontal_seam E height width (x + 1) ≤ find_horizontal_seam E height width x + 1 := by
  rw [find_horizontal_eq_vertical_transpose]
  exact find_vertical_seam_adj (transposeE E) width height x hx

theorem wrap_pred (n i : ℕ) (hn : 1 ≤ n) (hi : i < n) :
    (i + n - 1) % n = if i = 0 then n - 1 else i - 1 := by
  cases i with
  | zero =>
    simp
  | succ i =>
    simp
    exact Nat.mod_eq_of_lt (by omega)

theorem wrap_succ (n i : ℕ) (hi : i < n) :
    (i + 1) % n = if i + 1 = n then 0 else i + 1 := by
  split_ifs with hc
  · rw [hc]
    exact Nat.mod_self n
  · exact Nat.mod_eq_of_lt (by omega)

theorem dual_gradient_energy_eq_spec (cube : Cube) (height width depth : ℕ)
    (hh : 1 ≤ height) (hw : 1 ≤ width) (y x : ℕ) (hy : y < height) (hx : x < width) :
    dual_gradient_energy cube height width depth y x = spec_energy cube height width y x := by
  unfold dual_gradient_energy spec_energy
  simp only [Finset.sum_range_succ, Finset.sum_range_zero]
  rw [wrap_pred height y hh hy, wrap_succ height y hy,
    wrap_pred width x hw hx, wrap_succ width x hx]
  ring

theorem dual_gradient_energy_nonneg (cube : Cube) (height width depth : ℕ) (y x : ℕ) :
    0 ≤ dual_gradient_energy cube height width depth y x := by
  unfold dual_gradient_energy
  dsimp only
  have h1 := mul_self_nonneg
    ((cube y ((x + 1) % width) 0 : ℤ) - (cube y ((x + width - 1) % width) 0 : ℤ))
  have h2 := mul_self_nonneg
    ((cube y ((x + 1) % width) 1 : ℤ) - (cube y ((x + width - 1) % width) 1 : ℤ))
  have h3 := mul_self_nonneg
    ((cube y ((x + 1) % width) 2 : ℤ) - (cube y ((x + width - 1) % width) 2 : ℤ))
  have h4 := mul_self_nonneg
    ((cube ((y + 1) % height) x 0 : ℤ) - (cube ((y + height - 1) % height) x 0 : ℤ))
  have h5 := mul_self_nonneg
    ((cube ((y + 1) % height) x 1 : ℤ) - (cube ((y + height - 1) % height) x 1 : ℤ))
  have h6 := mul_self_nonneg
    ((cube ((y + 1) % height) x 2 : ℤ) - (cube ((y + height - 1) % height) x 2 : ℤ))
  linarith

theorem dual_gradient_energy_bounded (cube : Cube) (height width depth : ℕ)
    (hbyte : ∀ a b c, cube a b c < 256) (y x : ℕ) :
    dual_gradient_energy cube height width depth y x ≤ 6 * 65025 := by
  unfold dual_gradient_energy
  dsimp only
  have hsq : ∀ a b : ℕ, a < 256 → b < 256 →
      ((a : ℤ) - (b : ℤ)) * ((a : ℤ) - (b : ℤ)) ≤ 65025 := by
    intro a b ha hb
    have ha1 : (a : ℤ) ≤ 255 := by omega
    have hb1 : (b : ℤ) ≤ 255 := by omega
    have ha0 : (0 : ℤ) ≤ (a : ℤ) := by positivity
    have hb0 : (0 : ℤ) ≤ (b : ℤ) := by positivity
    nlinarith
  have h1 := hsq _ _ (hbyte y ((x + 1) % width) 0) (hbyte y ((x + width - 1) % width) 0)
  have h2 := hsq _ _ (hbyte y ((x + 1) % width) 1) (hbyte y ((x + width - 1) % width) 1)
  have h3 := hsq _ _ (hbyte y ((x + 1) % width) 2) (hbyte y ((x + width - 1) % width) 2)
  have h4 := hsq _ _ (hbyte ((y + 1) % height) x 0) (hbyte ((y + height - 1) % height) x 0)
  have h5 := hsq _ _ (hbyte ((y + 1) % height) x 1) (hbyte ((y + height - 1) % height) x 1)
  have h6 := hsq _ _ (hbyte ((y + 1) % height) x 2) (hbyte ((y + height - 1) % height) x 2)
  linarith

/-! ### Pointwise characterisation of the shifts -/

theorem cube_set_spec (cb : Cube) (y x c v : ℕ) (a b d : ℕ) :
    cube_set cb y x c v a b d = if a = y ∧ b = x ∧ d = c then v else cb a b d := rfl

theorem copy_pixel_left_spec (cb : Cube) (y j : ℕ) (a b d : ℕ) :
    copy_pixel_left cb y j a b d
      = if a = y ∧ b = j ∧ d < 3 then cb y (j + 1) d else cb a b d := by
  unfold copy_pixel_left
  rw [cube_set_spec, cube_set_spec]
  by_cases h1 : a = y ∧ b = j ∧ d = 2
  · simp only [h1]
    rw [cube_set_spec, cube_set_spec, cube_set_spec]
    simp [h1.1, h1.2.1, h1.2.2]
  · rw [if_neg h1, cube_set_spec]
    by_cases h2 : a = y ∧ b = j ∧ d = 1
    · rw [if_pos h2, cube_set_spec]
      simp [h2.1, h2.2.1, h2.2.2]
    · rw [if_neg h2, cube_set_spec]
      by_cases h3 : a = y ∧ b = j ∧ d = 0
      · rw [if_pos h3]
        simp [h3.1, h3.2.1, h3.2.2]
      · rw [if_neg h3]
        have : ¬(a = y ∧ b = j ∧ d < 3) := by
          intro hc
          rcases hc with ⟨ha, hb, hd⟩
          interval_cases d
          · exact h3 ⟨ha, hb, rfl⟩
          · exact h2 ⟨ha, hb, rfl⟩
          · exact h1 ⟨ha, hb, rfl⟩
        rw [if_neg this]

theorem shift_fold_spec (y : ℕ) :
    ∀ n s (cb : Cube) (a b d : ℕ),
      ((List.range' s n).foldl (fun acc j => copy_pixel_left acc y j) cb) a b d
        = if a = y ∧ s ≤ b ∧ b < s + n ∧ d < 3 then cb y (b + 1) d else cb a b d := by
  intro n
  induction n with
  | zero =>
    intro s cb a b d
    exact (if_neg (by omega)).symm
  | succ n ih =>
    intro s cb a b d
    rw [List.range'_succ, List.foldl_cons, ih (s + 1) (copy_pixel_left cb y s) a b d]
    by_cases hc : a = y ∧ s + 1 ≤ b ∧ b < s + 1 + n ∧ d < 3
    · rw [if_pos hc, copy_pixel_left_spec]
      rw [if_neg (by intro hx; omega)]
      rw [if_pos ⟨hc.1, by omega, by omega, hc.2.2.2⟩]
    · rw [if_neg hc, copy_pixel_left_spec]
      by_cases h2 : a = y ∧ b = s ∧ d < 3
      · rw [if_pos h2, if_pos ⟨h2.1, by omega, by omega, h2.2.2⟩, h2.2.1]
      · rw [if_neg h2]
        have hno : ¬(a = y ∧ s ≤ b ∧ b < s + (n + 1) ∧ d < 3) := by
          intro hx
          obtain ⟨x1, x2, x3, x4⟩ := hx
          rcases Nat.eq_or_lt_of_le x2 with he | hl
          · exact h2 ⟨x1, he.symm, x4⟩
          · exact hc ⟨x1, hl, by omega, x4⟩
        rw [if_neg hno]

theorem shift_row_left_spec (cb : Cube) (y x width : ℕ) (hx : x < width) (a b d : ℕ) :
    shift_row_left cb y x width a b d
      = if a = y ∧ x ≤ b ∧ b < width - 1 ∧ d < 3 then cb y (b + 1) d else cb a b d := by
  unfold shift_row_left
  rw [shift_fold_spec]
  rw [show x + (width - 1 - x) = width - 1 from by omega]

theorem delete_row_op_spec (cb : Cube) (seam : ℕ → ℕ) (width s a b d : ℕ) :
    (if width ≤ seam s then cb else shift_row_left cb s (seam s) width) a b d
      = if a = s ∧ seam s < width ∧ seam s ≤ b ∧ b < width - 1 ∧ d < 3
        then cb a (b + 1) d else cb a b d := by
  split_ifs with h1 h2 h3
  · omega
  · rfl
  · rw [shift_row_left_spec cb s (seam s) width (by omega), if_pos ⟨h3.1, h3.2.2.1, h3.2.2.2.1, h3.2.2.2.2⟩, h3.1]
  · rw [shift_row_left_spec cb s (seam s) width (by omega)]
    rw [if_neg (by intro hx; exact h3 ⟨hx.1, by omega, hx.2.1, hx.2.2.1, hx.2.2.2⟩)]

theorem delete_rows_fold_spec (seam : ℕ → ℕ) (width : ℕ) :
    ∀ n s (cb : Cube) (a b d : ℕ),
      ((List.range' s n).foldl
          (fun acc y => if width ≤ seam y then acc else shift_row_left acc y (seam y) width)
          cb) a b d
        = if s ≤ a ∧ a < s + n ∧ seam a < width ∧ seam a ≤ b ∧ b < width - 1 ∧ d < 3
          then cb a (b + 1) d else cb a b d := by
  intro n
  induction n with
  | zero =>
    intro s cb a b d
    exact (if_neg (by omega)).symm
  | succ n ih =>
    intro s cb a b d
    rw [List.range'_succ, List.foldl_cons, ih (s + 1) _ a b d]
    by_cases hc : s + 1 ≤ a ∧ a < s + 1 + n ∧ seam a < width ∧ seam a ≤ b ∧ b < width - 1 ∧ d < 3
    · obtain ⟨c1, c2, c3, c4, c5, c6⟩ := hc
      rw [if_pos ⟨c1, c2, c3, c4, c5, c6⟩, delete_row_op_spec]
      rw [if_neg (by intro hx; omega)]
      rw [if_pos ⟨by omega, by omega, c3, c4, c5, c6⟩]
    · rw [if_neg hc, delete_row_op_spec]
      by_cases h2 : a = s ∧ seam s < width ∧ seam s ≤ b ∧ b < width - 1 ∧ d < 3
      · obtain ⟨ha, hsw, hsb, hb, hd⟩ := h2
        subst ha
        rw [if_pos ⟨rfl, hsw, hsb, hb, hd⟩, if_pos ⟨Nat.le_refl a, by omega, hsw, hsb, hb, hd⟩]
      · rw [if_neg h2]
        have hno : ¬(s ≤ a ∧ a < s + (n + 1) ∧ seam a < width ∧ seam a ≤ b ∧ b < width - 1 ∧ d < 3) := by
          intro hx
          obtain ⟨x1, x2, x3, x4, x5, x6⟩ := hx
          rcases Nat.eq_or_lt_of_le x1 with he | hl
          · exact h2 ⟨he.symm, by rw [he]; exact x3, by rw [he]; exact x4, x5, x6⟩
          · exact hc ⟨hl, by omega, x3, x4, x5, x6⟩
        rw [if_neg hno]

/-- Pointwise characterisation of `delete_vertical_seam`: rows with an
in-range seam entry have the tail beyond the seam shifted left by one; all
other positions are untouched. -/
theorem delete_vertical_seam_fst (cb : Cube) (seam : ℕ → ℕ) (height width : ℕ)
    (a b d : ℕ) :
    (delete_vertical_seam cb seam height width).1 a b d
      = if a < height ∧ seam a < width ∧ seam a ≤ b ∧ b < width - 1 ∧ d < 3
        then cb a (b + 1) d else cb a b d := by
  unfold delete_vertical_seam
  dsimp only
  rw [List.range_eq_range', delete_rows_fold_spec]
  simp only [Nat.zero_le, true_and, Nat.zero_add]

theorem copy_pixel_up_spec (cb : Cube) (i x : ℕ) (a b d : ℕ) :
    copy_pixel_up cb i x a b d
      = if a = i ∧ b = x ∧ d < 3 then cb (i + 1) x d else cb a b d := by
  unfold copy_pixel_up
  rw [cube_set_spec, cube_set_spec]
  by_cases h1 : a = i ∧ b = x ∧ d = 2
  · simp only [h1]
    rw [cube_set_spec, cube_set_spec, cube_set_spec]
    simp [h1.1, h1.2.1, h1.2.2]
  · rw [if_neg h1, cube_set_spec]
    by_cases h2 : a = i ∧ b = x ∧ d = 1
    · rw [if_pos h2, cube_set_spec]
      simp [h2.1, h2.2.1, h2.2.2]
    · rw [if_neg h2, cube_set_spec]
      by_cases h3 : a = i ∧ b = x ∧ d = 0
      · rw [if_pos h3]
        simp [h3.1, h3.2.1, h3.2.2]
      · rw [if_neg h3]
        have : ¬(a = i ∧ b = x ∧ d < 3) := by
          intro hc
          rcases hc with ⟨ha, hb, hd⟩
          interval_cases d
          · exact h3 ⟨ha, hb, rfl⟩
          · exact h2 ⟨ha, hb, rfl⟩
          · exact h1 ⟨ha, hb, rfl⟩
        rw [if_neg this]

theorem shift_col_fold_spec (x : ℕ) :
    ∀ n s (cb : Cube) (a b d : ℕ),
      ((List.range' s n).foldl (fun acc i => copy_pixel_up acc i x) cb) a b d
        = if b = x ∧ s ≤ a ∧ a < s + n ∧ d < 3 then cb (a + 1) x d else cb a b d := by
  intro n
  induction n with
  | zero =>
    intro s cb a b d
    exact (if_neg (by omega)).symm
  | succ n ih =>
    intro s cb a b d
    rw [List.range'_succ, List.foldl_cons, ih (s + 1) (copy_pixel_up cb s x) a b d]
    by_cases hc : b = x ∧ s + 1 ≤ a ∧ a < s + 1 + n ∧ d < 3
    · rw [if_pos hc, copy_pixel_up_spec]
      rw [if_neg (by intro hx; omega)]
      rw [if_pos ⟨hc.1, by omega, by omega, hc.2.2.2⟩]
    · rw [if_neg hc, copy_pixel_up_spec]
      by_cases h2 : a = s ∧ b = x ∧ d < 3
      · rw [if_pos h2, if_pos ⟨h2.2.1, by omega, by omega, h2.2.2⟩, h2.1]
      · rw [if_neg h2]
        have hno : ¬(b = x ∧ s ≤ a ∧ a < s + (n + 1) ∧ d < 3) := by
          intro hx
          obtain ⟨x1, x2, x3, x4⟩ := hx
          rcases Nat.eq_or_lt_of_le x2 with he | hl
          · exact h2 ⟨he.symm, x1, x4⟩
          · exact hc ⟨x1, hl, by omega, x4⟩
        rw [if_neg hno]

theorem shift_col_up_spec (cb : Cube) (x y height : ℕ) (hy : y < height) (a b d : ℕ) :
    shift_col_up cb x y height a b d
      = if b = x ∧ y ≤ a ∧ a < height - 1 ∧ d < 3 then cb (a + 1) x d else cb a b d := by
  unfold shift_col_up
  rw [shift_col_fold_spec]
  rw [show y + (height - 1 - y) = height - 1 from by omega]

theorem delete_col_op_spec (cb : Cube) (seam : ℕ → ℕ) (height s a b d : ℕ) :
    (if height ≤ seam s then cb else shift_col_up cb s (seam s) height) a b d
      = if b = s ∧ seam s < height ∧ seam s ≤ a ∧ a < height - 1 ∧ d < 3
        then cb (a + 1) b d else cb a b d := by
  split_ifs with h1 h2 h3
  · omega
  · rfl
  · rw [shift_col_up_spec cb s (seam s) height (by omega), if_pos ⟨h3.1, h3.2.2.1, h3.2.2.2.1, h3.2.2.2.2⟩, h3.1]
  · rw [shift_col_up_spec cb s (seam s) height (by omega)]
    rw [if_neg (by intro hx; exact h3 ⟨hx.1, by omega, hx.2.1, hx.2.2.1, hx.2.2.2⟩)]

theorem delete_cols_fold_spec (seam : ℕ → ℕ) (height : ℕ) :
    ∀ n s (cb : Cube) (a b d : ℕ),
      ((List.range' s n).foldl
          (fun acc x => if height ≤ seam x then acc else shift_col_up acc x (seam x) height)
          cb) a b d
        = if s ≤ b ∧ b < s + n ∧ seam b < height ∧ seam b ≤ a ∧ a < height - 1 ∧ d < 3
          then cb (a + 1) b d else cb a b d := by
  intro n
  induction n with
  | zero =>
    intro s cb a b d
    exact (if_neg (by omega)).symm
  | succ n ih =>
    intro s cb a b d
    rw [List.range'_succ, List.foldl_cons, ih (s + 1) _ a b d]
    by_cases hc : s + 1 ≤ b ∧ b < s + 1 + n ∧ seam b < height ∧ seam b ≤ a ∧ a < height - 1 ∧ d < 3
    · obtain ⟨c1, c2, c3, c4, c5, c6⟩ := hc
      rw [if_pos ⟨c1, c2, c3, c4, c5, c6⟩, delete_col_op_spec]
      rw [if_neg (by intro hx; omega)]
      rw [if_pos ⟨by omega, by omega, c3, c4, c5, c6⟩]
    · rw [if_neg hc, delete_col_op_spec]
      by_cases h2 : b = s ∧ seam s < height ∧ seam s ≤ a ∧ a < height - 1 ∧ d < 3
      · obtain ⟨hb, hsh, hsa, hah, hd⟩ := h2
        subst hb
        rw [if_pos ⟨rfl, hsh, hsa, hah, hd⟩, if_pos ⟨Nat.le_refl b, by omega, hsh, hsa, hah, hd⟩]
      · rw [if_neg h2]
        have hno : ¬(s ≤ b ∧ b < s + (n + 1) ∧ seam b < height ∧ seam b ≤ a ∧ a < height - 1 ∧ d < 3) := by
          intro hx
          obtain ⟨x1, x2, x3, x4, x5, x6⟩ := hx
          rcases Nat.eq_or_lt_of_le x1 with he | hl
          · exact h2 ⟨he.symm, by rw [he]; exact x3, by rw [he]; exact x4, x5, x6⟩
          · exact hc ⟨hl, by omega, x3, x4, x5, x6⟩
        rw [if_neg hno]

/-- Pointwise characterisation of `delete_horizontal_seam`: columns with an
in-range seam entry have the tail below the seam shifted up by one; all other
positions are untouched. -/
theorem delete_horizontal_seam_fst (cb : Cube) (seam : ℕ → ℕ) (height width : ℕ)
    (a b d : ℕ) :
    (delete_horizontal_seam cb seam height width).1 a b d
      = if b < width ∧ seam b < height ∧ seam b ≤ a ∧ a < height - 1 ∧ d < 3
        then cb (a + 1) b d else cb a b d := by
  unfold delete_horizontal_seam
  dsimp only
  rw [List.range_eq_range', delete_cols_fold_spec]
  simp only [Nat.zero_le, true_and, Nat.zero_add]

theorem carve_width_snd (H nw : ℕ) :
    ∀ W (cb : Cube), 1 ≤ W → (carve_width H nw cb W).2 = max 1 (min nw W) := by
  intro W
  induction W with
  | zero => intro cb h; omega
  | succ W ih =>
    intro cb _
    show (if nw < W + 1 ∧ 2 ≤ W + 1 then
        carve_width H nw
          (delete_vertical_seam cb
            (find_vertical_seam (dual_gradient_energy cb H (W + 1) 3) H (W + 1))
            H (W + 1)).1 W
      else (cb, W + 1)).2 = max 1 (min nw (W + 1))
    split_ifs with h
    · rw [ih _ (by omega)]
      omega
    · show W + 1 = max 1 (min nw (W + 1))
      omega

theorem carve_height_snd (W nh : ℕ) :
    ∀ H (cb : Cube), 1 ≤ H → (carve_height W nh cb H).2 = max 1 (min nh H) := by
  intro H
  induction H with
  | zero => intro cb h; omega
  | succ H ih =>
    intro cb _
    show (if nh < H + 1 ∧ 2 ≤ H + 1 then
        carve_height W nh
          (delete_horizontal_seam cb
            (find_horizontal_seam (dual_gradient_energy cb (H + 1) W 3) (H + 1) W)
            (H + 1) W).1 H
      else (cb, H + 1)).2 = max 1 (min nh (H + 1))
    split_ifs with h
    · rw [ih _ (by omega)]
      omega
    · show H + 1 = max 1 (min nh (H + 1))
      omega

/-- The final dimensions of the carving loop: each requested target,
upper-clamped by `main` and floored at 1 by the `>= 2` loop guards. -/
theorem seam_main_dims (cb : Cube) (H0 W0 nw nh : ℕ) (hh : 1 ≤ H0) (hw : 1 ≤ W0) :
    (seam_main cb H0 W0 nw nh).2.1 = max 1 (min nh H0) ∧
      (seam_main cb H0 W0 nw nh).2.2 = max 1 (min nw W0) := by
  unfold seam_main clamp_target
  dsimp only
  constructor
  · rw [carve_height_snd _ _ _ _ hh]
    split_ifs <;> omega
  · rw [carve_width_snd _ _ _ _ hw]
    split_ifs <;> omega

/-! ### Tie-breaking of the predecessor choice -/

theorem vstep_snd_straight (d : ℕ → ℤ) (w x : ℕ)
    (h1 : 0 < x → d x ≤ d (x - 1)) (h2 : x + 1 < w → d x ≤ d (x + 1)) :
    (vstep d w x).2 = x := by
  unfold vstep
  split_ifs <;> simp_all <;> omega

theorem vstep_snd_left (d : ℕ → ℤ) (w x : ℕ) (h0 : 0 < x)
    (h1 : d (x - 1) < d x) (h2 : x + 1 < w → d (x - 1) ≤ d (x + 1)) :
    (vstep d w x).2 = x - 1 := by
  unfold vstep
  split_ifs <;> simp_all <;> omega

theorem vstep_snd_right (d : ℕ → ℤ) (w x : ℕ) (hr : x + 1 < w)
    (h1 : d (x + 1) < d x) (h2 : 0 < x → d (x + 1) < d (x - 1)) :
    (vstep d w x).2 = x + 1 := by
  unfold vstep
  split_ifs <;> simp_all <;> omega

/-! ### Claim theorems -/

/-- C1: for every `H×W` energy field with `H ≥ 1` and `W ≥ 1`, the seam
returned by `find_vertical_seam` has total energy at most that of every
valid vertical path (one in-range column per row, adjacent rows' columns
differing by at most 1), and `find_horizontal_seam` is likewise minimal
over valid horizontal paths. -/
theorem C1_seam_search_minimal (E : EnergyGrid) (height width : ℕ)
    (hh : 1 ≤ height) (hw : 1 ≤ width) :
    (∀ p : ℕ → ℕ, valid_vpath p height width →
      vtotal E (find_vertical_seam E height width) height ≤ vtotal E p height) ∧
    (∀ q : ℕ → ℕ, valid_hpath q height width →
      htotal E (find_horizontal_seam E height width) width ≤ htotal E q width) :=
  ⟨fun p hp => vseam_minimal E height width hh hw p hp,
   fun q hq => hseam_minimal E height width hh hw q hq⟩

/-- Witness for C1 on a concrete 2×2 field against the constant-0 path. -/
theorem C1_seam_search_minimal_witness :
    vtotal bendE (find_vertical_seam bendE 2 2) 2 ≤ vtotal bendE (fun _ => 0) 2 ∧
    htotal bendE (find_horizontal_seam bendE 2 2) 2 ≤ htotal bendE (fun _ => 0) 2 := by
  have h := C1_seam_search_minimal bendE 2 2 (by decide) (by decide)
  refine ⟨h.1 (fun _ => 0) ⟨fun y hy => by show (0 : ℕ) < 2; omega,
      fun y hy => by show (0 : ℕ) ≤ 0 + 1 ∧ (0 : ℕ) ≤ 0 + 1; omega⟩,
    h.2 (fun _ => 0) ⟨fun x hx => by show (0 : ℕ) < 2; omega,
      fun x hx => by show (0 : ℕ) ≤ 0 + 1 ∧ (0 : ℕ) ≤ 0 + 1; omega⟩⟩

/-- C2 is false as stated: on the all-zero 2×2 field the two in-range
predecessor candidates of cell `(1,1)` (left-diagonal column 0 and straight
column 1) tie on cumulative cost, yet `back` records the straight column 1,
not the lowest in-range column 0. -/
theorem C2_counterexample :
    vdist zeroE 2 0 0 = vdist zeroE 2 0 1 ∧ vback zeroE 2 1 1 = 1 ∧ (1 : ℤ) ≠ 0 :=
  ⟨by decide, by decide, by decide⟩

/-- C2 (amended): ties among the predecessor candidates are broken in the
code's evaluation order straight, left-diagonal, right-diagonal: the straight
candidate wins any tie it is part of, a diagonal is recorded only when
strictly smaller, and the left diagonal beats the right diagonal on their
tie; the transpose statement holds for the horizontal table. -/
theorem C2_tie_break_straight_first (E : EnergyGrid) (width height y x : ℕ) :
    ((0 < x → vdist E width y x ≤ vdist E width y (x - 1)) →
      (x + 1 < width → vdist E width y x ≤ vdist E width y (x + 1)) →
      vback E width (y + 1) x = (x : ℤ)) ∧
    (0 < x → vdist E width y (x - 1) < vdist E width y x →
      (x + 1 < width → vdist E width y (x - 1) ≤ vdist E width y (x + 1)) →
      vback E width (y + 1) x = (x : ℤ) - 1) ∧
    (x + 1 < width → vdist E width y (x + 1) < vdist E width y x →
      (0 < x → vdist E width y (x + 1) < vdist E width y (x - 1)) →
      vback E width (y + 1) x = (x : ℤ) + 1) ∧
    ((0 < y → hdist E height x y ≤ hdist E height x (y - 1)) →
      (y + 1 < height → hdist E height x y ≤ hdist E height x (y + 1)) →
      hback E height (x + 1) y = (y : ℤ)) ∧
    (0 < y → hdist E height x (y - 1) < hdist E height x y →
      (y + 1 < height → hdist E height x (y - 1) ≤ hdist E height x (y + 1)) →
      hback E height (x + 1) y = (y : ℤ) - 1) ∧
    (y + 1 < height → hdist E height x (y + 1) < hdist E height x y →
      (0 < y → hdist E height x (y + 1) < hdist E height x (y - 1)) →
      hback E height (x + 1) y = (y : ℤ) + 1) := by
  refine ⟨?_, ?_, ?_, ?_, ?_, ?_⟩
  · intro h1 h2
    show ((vstep (vdist E width y) width x).2 : ℤ) = (x : ℤ)
    rw [vstep_snd_straight (vdist E width y) width x h1 h2]
  · intro h0 h1 h2
    show ((vstep (vdist E width y) width x).2 : ℤ) = (x : ℤ) - 1
    rw [vstep_snd_left (vdist E width y) width x h0 h1 h2]
    omega
  · intro hr h1 h2
    show ((vstep (vdist E width y) width x).2 : ℤ) = (x : ℤ) + 1
    rw [vstep_snd_right (vdist E width y) width x hr h1 h2]
    omega
  · intro h1 h2
    show ((hstep (hdist E height x) height y).2 : ℤ) = (y : ℤ)
    rw [hstep_eq_vstep, vstep_snd_straight (hdist E height x) height y h1 h2]
  · intro h0 h1 h2
    show ((hstep (hdist E height x) height y).2 : ℤ) = (y : ℤ) - 1
    rw [hstep_eq_vstep, vstep_snd_left (hdist E height x) height y h0 h1 h2]
    omega
  · intro hr h1 h2
    show ((hstep (hdist E height x) height y).2 : ℤ) = (y : ℤ) + 1
    rw [hstep_eq_vstep, vstep_snd_right (hdist E height x) height y hr h1 h2]
    omega

/-- Witness for the amended C2: on `bendE` the right diagonal of cell
`(1,0)` is strictly smaller, so it is recorded. -/
theorem C2_tie_break_straight_first_witness : vback bendE 2 1 0 = (0 : ℤ) + 1 :=
  (C2_tie_break_straight_first bendE 2 2 0 0).2.2.1 (by decide) (by decide)
    (fun h => absurd h (by decide))

/-- C3: from a buffer of logical size `H0×W0` with targets
`1 ≤ Wt ≤ W0`, `1 ≤ Ht ≤ H0`, the carving loop (a total function in this
model, so termination is inherent) ends with exactly the target
dimensions. -/
theorem C3_carving_loop_dims (cb : Cube) (H0 W0 Wt Ht : ℕ)
    (h1 : 1 ≤ Wt) (h2 : Wt ≤ W0) (h3 : 1 ≤ Ht) (h4 : Ht ≤ H0) :
    (seam_main cb H0 W0 Wt Ht).2.1 = Ht ∧ (seam_main cb H0 W0 Wt Ht).2.2 = Wt := by
  have h := seam_main_dims cb H0 W0 Wt Ht (by omega) (by omega)
  refine ⟨?_, ?_⟩
  · rw [h.1]
    omega
  · rw [h.2]
    omega

/-- Witness for C3: carving a 2×2 buffer to 1×1. -/
theorem C3_carving_loop_dims_witness :
    (seam_main zeroCube 2 2 1 1).2.1 = 1 ∧ (seam_main zeroCube 2 2 1 1).2.2 = 1 :=
  C3_carving_loop_dims zeroCube 2 2 1 1 (by decide) (by decide) (by decide) (by decide)

/-- C4 is false as stated: a requested width of 0 is neither rejected nor
clamped into `[1, W0]` before the loop — the value actually used is 0 —
and the loop then runs and silently stops at width 1, a size different from
the request. -/
theorem C4_counterexample :
    clamp_target 2 0 = 0 ∧ ¬ 1 ≤ clamp_target 2 0 ∧
      (seam_main zeroCube 2 2 0 0).2.2 = 1 ∧ (1 : ℕ) ≠ 0 :=
  ⟨rfl, by decide, by decide, by decide⟩

/-- C4 (amended): targets are clamped only from above before the loop; no
target is rejected.  The `>= 2` loop guards floor the final dimensions at 1,
so the final dimensions equal each target clamped to `[1, original]` — a
zero target silently yields dimension 1 instead of being rejected. -/
theorem C4_target_clamp_behavior (cb : Cube) (H0 W0 nw nh : ℕ)
    (hh : 1 ≤ H0) (hw : 1 ≤ W0) :
    (seam_main cb H0 W0 nw nh).2.1 = max 1 (min nh H0) ∧
      (seam_main cb H0 W0 nw nh).2.2 = max 1 (min nw W0) :=
  seam_main_dims cb H0 W0 nw nh hh hw

/-- Witness for the amended C4 at the zero target. -/
theorem C4_target_clamp_behavior_witness :
    (seam_main zeroCube 2 2 0 0).2.1 = max 1 (min 0 2) ∧
      (seam_main zeroCube 2 2 0 0).2.2 = max 1 (min 0 2) :=
  C4_target_clamp_behavior zeroCube 2 2 0 0 (by decide) (by decide)

/-- C5: for `H, W ≥ 1` the energy at every in-range pixel equals the sum
over the three channels of the squared left/right difference plus the sum of
the squared up/down difference with wraparound neighbours, is a non-negative
integer, and (for 8-bit channels) is bounded by `6·255²`, so the signed
intermediate arithmetic is exact. -/
theorem C5_energy_spec (cube : Cube) (height width depth y x : ℕ)
    (hh : 1 ≤ height) (hw : 1 ≤ width) (hy : y < height) (hx : x < width) :
    dual_gradient_energy cube height width depth y x = spec_energy cube height width y x ∧
      0 ≤ dual_gradient_energy cube height width depth y x ∧
      ((∀ a b c, cube a b c < 256) →
        dual_gradient_energy cube height width depth y x ≤ 6 * 65025) :=
  ⟨dual_gradient_energy_eq_spec cube height width depth hh hw y x hy hx,
   dual_gradient_energy_nonneg cube height width depth y x,
   fun hb => dual_gradient_energy_bounded cube height width depth hb y x⟩

/-- Witness for C5 on the all-zero 1×1 buffer. -/
theorem C5_energy_spec_witness :
    dual_gradient_energy zeroCube 1 1 3 0 0 = spec_energy zeroCube 1 1 0 0 ∧
      0 ≤ dual_gradient_energy zeroCube 1 1 3 0 0 ∧
      ((∀ a b c, zeroCube a b c < 256) →
        dual_gradient_energy zeroCube 1 1 3 0 0 ≤ 6 * 65025) :=
  C5_energy_spec zeroCube 1 1 3 0 0 (by decide) (by decide) (by decide) (by decide)

/-- C6: given a seam valid for the buffer's size and orientation, vertical
deletion yields logical width `W-1` and horizontal deletion logical height
`H-1`; in each row (resp. column) the pixels before the seam entry stay in
place and every pixel after it moves one position left (resp. up), so the
remaining pixels keep their relative order. -/
theorem C6_seam_removal (cb : Cube) (vs hs : ℕ → ℕ) (height width : ℕ)
    (hv : ∀ y, y < height → vs y < width) (hhs : ∀ x, x < width → hs x < height) :
    (delete_vertical_seam cb vs height width).2 = width - 1 ∧
    (∀ y j c, y < height → c < 3 →
      (j < vs y → (delete_vertical_seam cb vs height width).1 y j c = cb y j c) ∧
      (vs y ≤ j → j < width - 1 →
        (delete_vertical_seam cb vs height width).1 y j c = cb y (j + 1) c)) ∧
    (delete_horizontal_seam cb hs height width).2 = height - 1 ∧
    (∀ i x c, x < width → c < 3 →
      (i < hs x → (delete_horizontal_seam cb hs height width).1 i x c = cb i x c) ∧
      (hs x ≤ i → i < height - 1 →
        (delete_horizontal_seam cb hs height width).1 i x c = cb (i + 1) x c)) := by
  refine ⟨rfl, ?_, rfl, ?_⟩
  · intro y j c hy hc
    constructor
    · intro hj
      rw [delete_vertical_seam_fst, if_neg (by intro hx; omega)]
    · intro hj1 hj2
      rw [delete_vertical_seam_fst, if_pos ⟨hy, hv y hy, hj1, hj2, hc⟩]
  · intro i x c hx hc
    constructor
    · intro hi
      rw [delete_horizontal_seam_fst, if_neg (by intro hcc; omega)]
    · intro hi1 hi2
      rw [delete_horizontal_seam_fst, if_pos ⟨hx, hhs x hx, hi1, hi2, hc⟩]

/-- Witness for C6: deleting the column-0 seam from a 2×2 buffer moves the
pixel of column 1 into column 0 and shrinks the width to 1. -/
theorem C6_seam_removal_witness :
    (delete_vertical_seam rampCube (fun _ => 0) 2 2).2 = 2 - 1 ∧
      (delete_vertical_seam rampCube (fun _ => 0) 2 2).1 0 0 0 = rampCube 0 (0 + 1) 0 := by
  have h := C6_seam_removal rampCube (fun _ => 0) (fun _ => 0) 2 2
    (fun y hy => by show (0 : ℕ) < 2; omega) (fun x hx => by show (0 : ℕ) < 2; omega)
  exact ⟨h.1, (h.2.1 0 0 0 (by omega) (by omega)).2 (by show (0 : ℕ) ≤ 0; omega) (by omega)⟩

/-- C7: every seam returned by `find_vertical_seam` on an `H×W` field with
`H, W ≥ 1` has in-range entries and adjacent entries differing by at most 1,
and likewise for `find_horizontal_seam`; this includes the single-row case
`H = 1`, where the result is a valid one-entry seam. -/
theorem C7_seam_connectivity (E : EnergyGrid) (height width : ℕ)
    (hh : 1 ≤ height) (hw : 1 ≤ width) :
    (∀ y, find_vertical_seam E height width y < width) ∧
    (∀ y, y + 1 < height →
      find_vertical_seam E height width y ≤ find_vertical_seam E height width (y + 1) + 1 ∧
      find_vertical_seam E height width (y + 1) ≤ find_vertical_seam E height width y + 1) ∧
    (∀ x, find_horizontal_seam E height width x < height) ∧
    (∀ x, x + 1 < width →
      find_horizontal_seam E height width x ≤ find_horizontal_seam E height width (x + 1) + 1 ∧
      find_horizontal_seam E height width (x + 1) ≤ find_horizontal_seam E height width x + 1) :=
  ⟨find_vertical_seam_lt E height width hw,
   fun y hy => find_vertical_seam_adj E height width y hy,
   find_horizontal_seam_lt E height width hh,
   fun x hx => find_horizontal_seam_adj E height width x hx⟩

/-- Witness for C7 on a single-row 1×3 field: the vertical seam entry is in
range and the horizontal seam has in-range adjacent entries. -/
theorem C7_seam_connectivity_witness :
    find_vertical_seam zeroE 1 3 0 < 3 ∧ find_horizontal_seam zeroE 1 3 0 < 1 ∧
      (find_horizontal_seam zeroE 1 3 0 ≤ find_horizontal_seam zeroE 1 3 (0 + 1) + 1 ∧
        find_horizontal_seam zeroE 1 3 (0 + 1) ≤ find_horizontal_seam zeroE 1 3 0 + 1) := by
  have h := C7_seam_connectivity zeroE 1 3 (by decide) (by decide)
  exact ⟨h.1 0, h.2.2.1 0, h.2.2.2 0 (by decide)⟩

/-- C8: a row whose seam entry is out of range (`≥ width`) is left exactly
unchanged by `delete_vertical_seam` (silent skip, no abort); likewise a
column whose entry is `≥ height` is left unchanged by
`delete_horizontal_seam`. -/
theorem C8_silent_skip (cb : Cube) (vs hs : ℕ → ℕ) (height width y x : ℕ) :
    (width ≤ vs y → ∀ j c, (delete_vertical_seam cb vs height width).1 y j c = cb y j c) ∧
    (height ≤ hs x → ∀ i c, (delete_horizontal_seam cb hs height width).1 i x c = cb i x c) := by
  constructor
  · intro hy j c
    rw [delete_vertical_seam_fst, if_neg (by intro hc; omega)]
  · intro hx i c
    rw [delete_horizontal_seam_fst, if_neg (by intro hc; omega)]

/-- Witness for C8 with the everywhere-out-of-range seam 9 on a 2×2 buffer. -/
theorem C8_silent_skip_witness :
    (delete_vertical_seam rampCube (fun _ => 9) 2 2).1 0 1 2 = rampCube 0 1 2 ∧
      (delete_horizontal_seam rampCube (fun _ => 9) 2 2).1 1 0 2 = rampCube 1 0 2 := by
  have h := C8_silent_skip rampCube (fun _ => 9) (fun _ => 9) 2 2 0 0
  exact ⟨h.1 (by show (2 : ℕ) ≤ 9; omega) 1 2, h.2 (by show (2 : ℕ) ≤ 9; omega) 1 2⟩

/-- C9: `find_horizontal_seam` on an `H×W` field returns exactly what
`find_vertical_seam` returns on the transposed `W×H` field — the horizontal
search (including predecessor evaluation order and final scan direction) is
the exact transpose of the vertical one. -/
theorem C9_horizontal_is_vertical_transpose (E : EnergyGrid) (height width x : ℕ) :
    find_horizontal_seam E height width x
      = find_vertical_seam (transposeE E) width height x :=
  congrFun (find_horizontal_eq_vertical_transpose E height width) x

/-- C10: `delete_vertical_seam` decrements the logical width by exactly one
on every call regardless of the seam's contents — even a fully out-of-range
seam shrinks the width while moving no pixel data — and
`delete_horizontal_seam` likewise always decrements the height. -/
theorem C10_always_shrinks (cb : Cube) (seam : ℕ → ℕ) (height width : ℕ) :
    (1 ≤ width → (delete_vertical_seam cb seam height width).2 + 1 = width) ∧
    ((∀ y, width ≤ seam y) →
      ∀ a b d, (delete_vertical_seam cb seam height width).1 a b d = cb a b d) ∧
    (1 ≤ height → (delete_horizontal_seam cb seam height width).2 + 1 = height) ∧
    ((∀ x, height ≤ seam x) →
      ∀ a b d, (delete_horizontal_seam cb seam height width).1 a b d = cb a b d) := by
  refine ⟨fun h => by show width - 1 + 1 = width; omega, ?_,
    fun h => by show height - 1 + 1 = height; omega, ?_⟩
  · intro hall a b d
    rw [delete_vertical_seam_fst]
    rw [if_neg (by intro hc; have := hall a; omega)]
  · intro hall a b d
    rw [delete_horizontal_seam_fst]
    rw [if_neg (by intro hc; have := hall b; omega)]

/-- Witness for C10 with the everywhere-out-of-range seam 9 on a 2×2
buffer: the width still shrinks by one and no pixel moves. -/
theorem C10_always_shrinks_witness :
    (delete_vertical_seam rampCube (fun _ => 9) 2 2).2 + 1 = 2 ∧
      (delete_vertical_seam rampCube (fun _ => 9) 2 2).1 1 1 1 = rampCube 1 1 1 := by
  have h := C10_always_shrinks rampCube (fun _ => 9) 2 2
  exact ⟨h.1 (by decide), h.2.1 (fun y => by show (2 : ℕ) ≤ 9; omega) 1 1 1⟩
